import Mathlib

/-!
Verification of the weighted heat risk pipeline
(`src/ai/weighted_heat_risk_pipeline.py` and the append mode of
`src/ai/fetch_pipeline_data.py`).

The pandas data frames are embedded shallowly:

* an input frame for `load_data` is a `RawTable`: a list of rows together
  with one boolean per optional column saying whether that column is
  present in the CSV (pandas column presence is uniform across rows);
* the frame returned by `load_data` is a `List LoadedRow`; a `LoadedRow`
  structurally carries the six canonical columns (`barangay_id`, `date`,
  `temperature`, `facility_distance`, `population`, `density`) plus the
  `facility_score` column when it was present in the input;
* numeric cells are `ℚ`; a `density` cell is `Option ℚ`, `none` standing
  for a missing or non-numeric value (what `pd.to_numeric(errors="coerce")`
  turns into NaN before `fillna(0)`);
* dates are `ℕ` (ISO date strings compare lexicographically, which is
  order-isomorphic to their order as days);
* `sklearn.KMeans` is an external collaborator: the risk-level mapping of
  `run_kmeans_and_risk_levels` (lines 92-95 of the pipeline) is embedded as
  a function of the cluster assignment it receives from `fit_predict`.
-/

namespace HeatRisk

/-- One row of the raw input CSV.  A field is only meaningful when the
corresponding `has…` flag of the enclosing `RawTable` is set. -/
structure RawRow where
  barangay_id : String
  date : ℕ
  temperature : ℚ
  facility_distance : ℚ
  facility_score : ℚ
  population : ℤ
  density : Option ℚ
deriving DecidableEq, Inhabited

/-- The raw input frame of `load_data`: rows plus column-presence flags
(`pd.read_csv` yields a frame whose set of columns is global, not
per-row). -/
structure RawTable where
  hasBarangayId : Bool
  hasDate : Bool
  hasTemperature : Bool
  hasFacilityDistance : Bool
  hasFacilityScore : Bool
  hasPopulation : Bool
  hasDensity : Bool
  rows : List RawRow
deriving DecidableEq, Inhabited

/-- One row of the frame returned by `load_data`.  The six canonical
columns are structural fields; `facility_score` is kept as an optional
seventh column exactly when the input had it (the source never drops
it). -/
structure LoadedRow where
  barangay_id : String
  date : ℕ
  temperature : ℚ
  facility_distance : ℚ
  facility_score : Option ℚ
  population : ℤ
  density : Option ℚ
deriving DecidableEq, Inhabited

/-- Build one output row of `load_data` from a raw row; `fd` selects the
value of the `facility_distance` column (either the column itself or the
`facility_score` alias), and the optional columns receive their
synthesized defaults (`population = 0`, `density = 0.0`) when absent. -/
def loadRow (df : RawTable) (fd : RawRow → ℚ) (r : RawRow) : LoadedRow :=
  { barangay_id := r.barangay_id
    date := r.date
    temperature := r.temperature
    facility_distance := fd r
    facility_score := if df.hasFacilityScore then some r.facility_score else none
    population := if df.hasPopulation then r.population else 0
    density := if df.hasDensity then r.density else some 0 }

/-- `load_data` (pipeline lines 25-39).  The required-column loop checks
`barangay_id`, `date`, `temperature` in order (it skips
`facility_distance`); then `facility_score` is copied into
`facility_distance` when only the alias is present, and missing
`density` / `population` columns are synthesized as `0.0` / `0`.
Errors are `Except.error`, mirroring the raised `ValueError`s. -/
def load_data (df : RawTable) : Except String (List LoadedRow) :=
  if df.hasBarangayId = false then .error "Missing required column: barangay_id"
  else if df.hasDate = false then .error "Missing required column: date"
  else if df.hasTemperature = false then .error "Missing required column: temperature"
  else if df.hasFacilityDistance = false ∧ df.hasFacilityScore = true then
    .ok (df.rows.map (loadRow df (fun r => r.facility_score)))
  else if df.hasFacilityDistance = false then
    .error "Missing column: facility_distance or facility_score"
  else
    .ok (df.rows.map (loadRow df (fun r => r.facility_distance)))

/-! ### `prepare_features` (pipeline lines 42-76) -/

/-- The sort key order of `df.sort_values(["barangay_id", "date"])`:
lexicographic on the pair (unit id, date).  Unit ids are compared by the
code-point lexicographic order of their character lists, which is the
order pandas uses on string columns. -/
def rowLe (a b : LoadedRow) : Prop :=
  a.barangay_id.data < b.barangay_id.data
    ∨ (a.barangay_id = b.barangay_id ∧ a.date ≤ b.date)

instance : DecidableRel rowLe := fun a b => by
  unfold rowLe
  infer_instance

instance : IsTotal LoadedRow rowLe where
  total a b := by
    rcases lt_trichotomy a.barangay_id.data b.barangay_id.data with h | h | h
    · exact Or.inl (Or.inl h)
    · have hbid : a.barangay_id = b.barangay_id := String.ext h
      rcases Nat.le_total a.date b.date with hd | hd
      · exact Or.inl (Or.inr ⟨hbid, hd⟩)
      · exact Or.inr (Or.inr ⟨hbid.symm, hd⟩)
    · exact Or.inr (Or.inl h)

instance : IsTrans LoadedRow rowLe where
  trans a b c hab hbc := by
    rcases hab with h1 | ⟨h1, hd1⟩
    · rcases hbc with h2 | ⟨h2, _⟩
      · exact Or.inl (h1.trans h2)
      · exact Or.inl (h2 ▸ h1)
    · rcases hbc with h2 | ⟨h2, hd2⟩
      · exact Or.inl (h1 ▸ h2)
      · exact Or.inr ⟨h1.trans h2, hd1.trans hd2⟩

/-- `df.sort_values(["barangay_id", "date"])` (line 51): sort the rows by
(unit id, date). -/
def sortRows (df : List LoadedRow) : List LoadedRow :=
  List.insertionSort rowLe df

/-- The coerced density of a row:
`pd.to_numeric(df["density"], errors="coerce").fillna(0)` (line 61)
turns a missing / non-numeric cell into `0`. -/
def coerceDensity (r : LoadedRow) : ℚ :=
  r.density.getD 0

/-- Arithmetic mean of a list of rationals (`0` on the empty list, which
never arises in the uses below). -/
def listMean (xs : List ℚ) : ℚ :=
  xs.sum / xs.length

/-- The last `n` elements of a list (the trailing rolling window). -/
def lastN (n : ℕ) (xs : List α) : List α :=
  xs.drop (xs.length - n)

/-- `df["date"].nunique()`: number of distinct dates in the frame. -/
def nuniqueDates (df : List LoadedRow) : ℕ :=
  (df.map (·.date)).dedup.length

/-- The temperatures of the rows of the unit of row `i` occurring at
position `≤ i` of `rows`.  This is what
`groupby("barangay_id")["temperature"]` exposes, up to and including the
current row, once the frame is sorted: the group of a unit is its rows in
frame order, and a trailing window at the current row only sees the group
members at earlier frame positions. -/
def unitHistory (rows : List LoadedRow) (i : ℕ) : List ℚ :=
  ((rows.take (i + 1)).filter
      (fun s => s.barangay_id = (rows.getD i default).barangay_id)).map (·.temperature)

/-- `x.rolling(window=window, min_periods=1).mean()` at row `i` of the
sorted frame: the mean of the last `≤ window` temperatures of the row's
own unit. -/
def rollingAt (rows : List LoadedRow) (window i : ℕ) : ℚ :=
  listMean (lastN window (unitHistory rows i))

/-- The `temp_rolling` column (lines 53-58): the grouped trailing-window
mean when rolling is enabled and the input has more than one distinct
date, otherwise the raw `temperature` column. -/
def tempRollingCol (rows : List LoadedRow) (use_rolling : Bool) (window : ℕ) : List ℚ :=
  if use_rolling = true ∧ 1 < nuniqueDates rows then
    (List.range rows.length).map (fun i => rollingAt rows window i)
  else
    rows.map (·.temperature)

/-- Minimum of a list of rationals (`0` on the empty list). -/
def listMin : List ℚ → ℚ
  | [] => 0
  | x :: xs => xs.foldl min x

/-- Maximum of a list of rationals (`0` on the empty list). -/
def listMax : List ℚ → ℚ
  | [] => 0
  | x :: xs => xs.foldl max x

/-- `MinMaxScaler` on one feature column: `(x - min) / (max - min)`, with
the zero denominator of a constant column replaced by `1` (sklearn's
`_handle_zeros_in_scale`), so a constant column maps to all zeros. -/
def minmaxScale (xs : List ℚ) : List ℚ :=
  xs.map (fun x =>
    (x - listMin xs) / (if listMax xs - listMin xs = 0 then 1 else listMax xs - listMin xs))

/-- The result of `prepare_features`: the sorted frame with its new
columns, the selected feature columns (raw and scaled, column-major), the
feature names and the weight vector. -/
structure Prepared where
  rows : List LoadedRow
  temp_rolling : List ℚ
  facility_score : List ℚ
  density : List ℚ
  featureCols : List String
  weights : List ℚ
  featuresRaw : List (List ℚ)
  featuresScaled : List (List ℚ)
deriving DecidableEq

/-- `has_density = df["density"].gt(0).any()` (line 63) over a frame. -/
def hasDensityFlag (rows : List LoadedRow) : Bool :=
  (rows.map coerceDensity).any (fun d => 0 < d)

/-- The raw (pre-scaling) feature matrix `df[feature_cols]` (line 71),
column-major. -/
def rawFeatures (rows : List LoadedRow) (use_rolling : Bool) (window : ℕ) :
    List (List ℚ) :=
  if hasDensityFlag rows then
    [tempRollingCol rows use_rolling window, rows.map (·.facility_distance),
      rows.map coerceDensity]
  else
    [tempRollingCol rows use_rolling window, rows.map (·.facility_distance)]

/-- `prepare_features` (lines 42-76).  Sorts by (unit, date), computes
`temp_rolling`, overwrites `facility_score` with `facility_distance`
(line 60), coerces `density` (line 61), chooses the feature-set variant
from `df["density"].gt(0).any()` (lines 63-69) and min-max scales each
feature column.  The `fillna(features.mean())` of line 72 is the identity
here: every cell of the assembled matrix is a total `ℚ` (density has
already been coerced). -/
def prepare_features (df : List LoadedRow) (use_rolling : Bool) (window : ℕ) : Prepared :=
  { rows := sortRows df
    temp_rolling := tempRollingCol (sortRows df) use_rolling window
    facility_score := (sortRows df).map (·.facility_distance)
    density := (sortRows df).map coerceDensity
    featureCols :=
      if hasDensityFlag (sortRows df) then ["temp_rolling", "facility_score", "density"]
      else ["temp_rolling", "facility_score"]
    weights :=
      if hasDensityFlag (sortRows df) then [1/3, 1/3, 1/3] else [1/2, 1/2]
    featuresRaw := rawFeatures (sortRows df) use_rolling window
    featuresScaled := (rawFeatures (sortRows df) use_rolling window).map minmaxScale }

/-! ### Risk-level mapping of `run_kmeans_and_risk_levels` (lines 92-95)

`kmeans.fit_predict` is an external collaborator (sklearn); the cluster
column it produces is the `clusters` argument below, one label per row of
the frame.  `featCols` is the list of the raw feature columns of the
frame selected by `feature_cols` (column-major, each aligned with the
rows), and `weights` the weight vector. -/

/-- The realized cluster labels in the order `df.groupby("cluster")`
produces them: sorted ascending (pandas `groupby` sorts its keys). -/
def clusterLabels (clusters : List ℕ) : List ℕ :=
  clusters.toFinset.sort (· ≤ ·)

/-- The row indices belonging to cluster `c`. -/
def memberIdxs (clusters : List ℕ) (c : ℕ) : List ℕ :=
  (List.range clusters.length).filter (fun i => clusters.getD i 0 = c)

/-- The groupby mean of one feature column over cluster `c`
(`df.groupby("cluster")[feature_cols].mean()`, line 92). -/
def clusterColMean (clusters : List ℕ) (col : List ℚ) (c : ℕ) : ℚ :=
  listMean ((memberIdxs clusters c).map (fun i => col.getD i 0))

/-- The severity score of cluster `c`:
`cluster_means.dot(weights)` (line 93). -/
def severityOf (clusters : List ℕ) (featCols : List (List ℚ)) (weights : List ℚ)
    (c : ℕ) : ℚ :=
  ((featCols.zip weights).map
    (fun p => p.2 * clusterColMean clusters p.1 c)).sum

/-- The `severity_score` series indexed by the sorted realized labels. -/
def sevSeries (clusters : List ℕ) (featCols : List (List ℚ)) (weights : List ℚ) :
    List ℚ :=
  (clusterLabels clusters).map (severityOf clusters featCols weights)

/-- The strict precedence order used by `rank(method="first")`: position
`j` ranks before position `i` when its value is smaller, or equal with
`j` occurring earlier in the series. -/
def rankBefore (xs : List ℚ) (j i : ℕ) : Prop :=
  xs.getD j 0 < xs.getD i 0 ∨ (xs.getD j 0 = xs.getD i 0 ∧ j < i)

instance : ∀ xs j i, Decidable (rankBefore xs j i) := fun xs j i => by
  unfold rankBefore
  infer_instance

/-- `Series.rank(method="first", ascending=True)` at position `i`:
one plus the number of positions that rank before `i`. -/
def rankAt (xs : List ℚ) (i : ℕ) : ℕ :=
  1 + ((Finset.range xs.length).filter (fun j => rankBefore xs j i)).card

/-- The `cluster_rank` dictionary (line 94): label `c` maps to the
`method="first"` rank of its severity score in the label-sorted series. -/
def clusterRank (clusters : List ℕ) (featCols : List (List ℚ)) (weights : List ℚ)
    (c : ℕ) : ℕ :=
  rankAt (sevSeries clusters featCols weights) ((clusterLabels clusters).indexOf c)

/-- The `risk_level` column (line 95): every row receives its own
cluster's rank. -/
def riskLevelCol (clusters : List ℕ) (featCols : List (List ℚ)) (weights : List ℚ) :
    List ℕ :=
  clusters.map (clusterRank clusters featCols weights)

/-- Frame position at which a cluster label is first produced by the
cluster assigner (first-seen order of labels in the cluster column). -/
def firstSeen (clusters : List ℕ) (c : ℕ) : ℕ :=
  clusters.findIdx (fun x => x = c)

/-! ### The latest-date extract of `main` (lines 140-142) -/

/-- One fully scored row, as `main` sees it after
`run_kmeans_and_risk_levels`. -/
structure ScoredRow where
  barangay_id : String
  date : ℕ
  risk_level : ℕ
  cluster : ℕ
deriving DecidableEq, Inhabited

/-- `df["date"].max()` (line 140). -/
def latestDate (rows : List ScoredRow) : ℕ :=
  (rows.map (·.date)).foldr max 0

/-- `df[df["date"] == latest_date][["barangay_id", "risk_level", "cluster"]]`
(line 141): the rows of the latest date, projected to the three output
columns. -/
def latestExtract (rows : List ScoredRow) : List (String × ℕ × ℕ) :=
  (rows.filter (fun r => r.date = latestDate rows)).map
    (fun r => (r.barangay_id, r.risk_level, r.cluster))

/-! ### Append mode of `fetch_pipeline_data.py` (lines 240-249)

A history table is embedded as a column-name list plus rows of cells
aligned with it; a cell is `Option ℚ`, `none` standing for `pd.NA`. -/

/-- A stored data frame: ordered column names and rows of cells aligned
positionally with the columns. -/
structure Table where
  cols : List String
  rows : List (List (Option ℚ))
deriving DecidableEq

/-- The cell of a row (aligned with `cols`) at column `c`: the value at
the first occurrence of `c` in `cols`, `none` when `c` is not a column
(or the row is too short). -/
def cellOf : List String → List (Option ℚ) → String → Option ℚ
  | [], _, _ => none
  | _ :: _, [], _ => none
  | c0 :: cs, v :: vs, c => if c0 = c then v else cellOf cs vs c

/-- The cell of table `t` at row index `i`, column `c`. -/
def tableCell (t : Table) (i : ℕ) (c : String) : Option ℚ :=
  cellOf t.cols (t.rows.getD i []) c

/-- The `for c in df.columns: if c not in existing.columns: existing[c] = pd.NA`
loop (lines 244-246): add each snapshot column absent from the history as
a new all-`pd.NA` column at the end. -/
def addMissingCols (existing : Table) (snapCols : List String) : Table :=
  let newCols := snapCols.filter (fun c => c ∉ existing.cols)
  { cols := existing.cols ++ newCols
    rows := existing.rows.map (fun row => row ++ newCols.map (fun _ => none)) }

/-- `pd.concat([existing, df], ignore_index=True)` followed by the write
(lines 240-248): after the column loop the history's columns are a
superset of the snapshot's, so the concatenation keeps the augmented
history columns and realigns each snapshot row to them by column name. -/
def appendSnapshot (existing snapshot : Table) : Table :=
  let aug := addMissingCols existing snapshot.cols
  { cols := aug.cols
    rows := aug.rows ++ snapshot.rows.map (fun row => aug.cols.map (cellOf snapshot.cols row)) }

/-! ### Auxiliary definitions for the statements and their witnesses -/

/-- Replace only the (loaded) `facility_score` column of a frame, leaving
the six canonical columns untouched.  Used to state that the clustering
features never depend on that column. -/
def setFacilityScore (v : LoadedRow → Option ℚ) (r : LoadedRow) : LoadedRow :=
  { r with facility_score := v r }

/-- A canonical loaded row used by concrete instantiations. -/
def mkLoadedRow (b : String) (d : ℕ) (t fd : ℚ) : LoadedRow :=
  { barangay_id := b, date := d, temperature := t, facility_distance := fd
    facility_score := none, population := 0, density := some 0 }

/-- Concrete raw table for the `load_data` witness: only the
`facility_score` alias present, `population` / `density` absent. -/
def c5Raw : RawTable :=
  { hasBarangayId := true, hasDate := true, hasTemperature := true
    hasFacilityDistance := false, hasFacilityScore := true
    hasPopulation := false, hasDensity := false
    rows := [{ barangay_id := "a", date := 1, temperature := 30
               facility_distance := 0, facility_score := 1/2
               population := 7, density := some 9 }] }

/-- The frame `load_data` produces on `c5Raw`. -/
def c5Loaded : List LoadedRow :=
  c5Raw.rows.map (loadRow c5Raw (fun r => r.facility_score))

/-- Concrete raw table for the `facility_score`-ignored witness: both
`facility_distance` and `facility_score` present. -/
def c10Raw : RawTable :=
  { hasBarangayId := true, hasDate := true, hasTemperature := true
    hasFacilityDistance := true, hasFacilityScore := true
    hasPopulation := true, hasDensity := true
    rows := [{ barangay_id := "a", date := 1, temperature := 30
               facility_distance := 1/4, facility_score := 1/2
               population := 7, density := some 2 }] }

/-- The frame `load_data` produces on `c10Raw`. -/
def c10Loaded : List LoadedRow :=
  c10Raw.rows.map (loadRow c10Raw (fun r => r.facility_distance))

/-- Concrete two-date frame for the rolling-mean witnesses. -/
def c6Rows : List LoadedRow :=
  [mkLoadedRow "a" 2 3 (1/2), mkLoadedRow "a" 1 1 (1/2), mkLoadedRow "b" 2 4 (1/2)]

/-- Concrete scored frame with a duplicated unit on the latest date (the
latest-date extract counterexample). -/
def c8DupRows : List ScoredRow :=
  [{ barangay_id := "a", date := 5, risk_level := 1, cluster := 0 },
    { barangay_id := "a", date := 5, risk_level := 1, cluster := 0 },
    { barangay_id := "b", date := 4, risk_level := 2, cluster := 1 }]

/-- Concrete scored frame without duplicated units for the amended
latest-date witness. -/
def c8GoodRows : List ScoredRow :=
  [{ barangay_id := "a", date := 5, risk_level := 1, cluster := 0 },
    { barangay_id := "b", date := 5, risk_level := 2, cluster := 1 },
    { barangay_id := "b", date := 4, risk_level := 2, cluster := 1 }]

/-- Concrete history table for the append-mode witness. -/
def c9History : Table :=
  { cols := ["barangay_id", "temperature"]
    rows := [[some 1, some 30], [some 2, none]] }

/-- Concrete snapshot table (with a new `density` column) for the
append-mode witness. -/
def c9Snapshot : Table :=
  { cols := ["barangay_id", "temperature", "density"]
    rows := [[some 3, some 31, some 5]] }

/-! ### Shared helper lemmas -/

theorem sortRows_perm (df : List LoadedRow) : List.Perm (sortRows df) df :=
  List.perm_insertionSort rowLe df

theorem sortRows_sorted (df : List LoadedRow) : (sortRows df).Sorted rowLe :=
  List.sorted_insertionSort rowLe df

theorem nuniqueDates_sortRows (df : List LoadedRow) :
    nuniqueDates (sortRows df) = nuniqueDates df := by
  unfold nuniqueDates
  rw [← List.card_toFinset, ← List.card_toFinset,
    List.toFinset_eq_of_perm _ _ ((sortRows_perm df).map (·.date))]

theorem hasDensity_sortRows (df : List LoadedRow) :
    hasDensityFlag (sortRows df) = df.any (fun r => 0 < coerceDensity r) := by
  apply Bool.eq_iff_iff.mpr
  unfold hasDensityFlag
  simp only [List.any_eq_true, List.mem_map]
  constructor
  · rintro ⟨d, ⟨r, hr, rfl⟩, hd⟩
    exact ⟨r, (sortRows_perm df).mem_iff.1 hr, hd⟩
  · rintro ⟨r, hr, hd⟩
    exact ⟨coerceDensity r, ⟨r, (sortRows_perm df).mem_iff.2 hr, rfl⟩, hd⟩

/-- C1: the feature-set variant is chosen globally from the whole input:
when at least one row has coerced density `> 0`, `prepare_features`
selects the 3-feature set with weights exactly `[1/3, 1/3, 1/3]`,
otherwise the 2-feature set with weights exactly `[1/2, 1/2]`; the weights
sum to `1` and align positionally with the feature name list.  A single
feature list and weight vector are produced for the whole run, so the
same variant applies to every row. -/
theorem prepare_features_variant (df : List LoadedRow) (use_rolling : Bool) (window : ℕ) :
    ((prepare_features df use_rolling window).featureCols,
        (prepare_features df use_rolling window).weights) =
      (if df.any (fun r => 0 < coerceDensity r) then
        (["temp_rolling", "facility_score", "density"], ([1/3, 1/3, 1/3] : List ℚ))
      else
        (["temp_rolling", "facility_score"], ([1/2, 1/2] : List ℚ)))
    ∧ (prepare_features df use_rolling window).weights.sum = 1
    ∧ (prepare_features df use_rolling window).weights.length =
        (prepare_features df use_rolling window).featureCols.length := by
  unfold prepare_features
  simp only [hasDensity_sortRows]
  cases h : df.any (fun r => 0 < coerceDensity r) <;> simp <;> norm_num

theorem loadRow_defaults (df : RawTable) (fd : RawRow → ℚ) (r : RawRow) :
    (df.hasPopulation = false → (loadRow df fd r).population = 0)
    ∧ (df.hasDensity = false → (loadRow df fd r).density = some 0) := by
  constructor <;> intro h <;> simp [loadRow, h]

theorem load_data_ok_cases (df : RawTable) (rows : List LoadedRow)
    (h : load_data df = .ok rows) :
    (df.hasFacilityDistance = true
      ∧ rows = df.rows.map (loadRow df (fun r => r.facility_distance)))
    ∨ (df.hasFacilityDistance = false ∧ df.hasFacilityScore = true
      ∧ rows = df.rows.map (loadRow df (fun r => r.facility_score))) := by
  unfold load_data at h
  split_ifs at h with h1 h2 h3 h4 h5 <;> cases h
  · exact Or.inr ⟨h4.1, h4.2, rfl⟩
  · refine Or.inl ⟨?_, rfl⟩
    cases hfd : df.hasFacilityDistance
    · exact absurd hfd h5
    · rfl

/-- C5: `load_data` fails exactly when `barangay_id`, `date` or
`temperature` is missing, or when neither `facility_distance` nor the
`facility_score` alias is present.  On success the result has all six
canonical columns (structurally, every `LoadedRow` carries them), with
`population = 0` and `density = 0.0` synthesized for every row when those
columns were absent, and with `facility_score` copied into
`facility_distance` when only the alias was present. -/
theorem load_data_schema_spec (df : RawTable) :
    ((load_data df).isOk = false ↔
      (df.hasBarangayId = false ∨ df.hasDate = false ∨ df.hasTemperature = false
        ∨ (df.hasFacilityDistance = false ∧ df.hasFacilityScore = false)))
    ∧ (∀ rows, load_data df = .ok rows →
        rows.length = df.rows.length
        ∧ (∀ r ∈ rows, (df.hasPopulation = false → r.population = 0)
            ∧ (df.hasDensity = false → r.density = some 0))
        ∧ (df.hasFacilityDistance = false → df.hasFacilityScore = true →
            rows.map (·.facility_distance) = df.rows.map (·.facility_score))) := by
  constructor
  · unfold load_data
    split_ifs with h1 h2 h3 h4 h5 <;>
      simp_all [Except.isOk, Except.toBool]
  · intro rows hrows
    rcases load_data_ok_cases df rows hrows with ⟨hfd, rfl⟩ | ⟨hfd, hfs, rfl⟩ <;>
      refine ⟨by simp, ?_, ?_⟩
    · intro r hr
      obtain ⟨s, -, rfl⟩ := List.mem_map.1 hr
      exact loadRow_defaults df _ s
    · intro hfd' _
      exact absurd hfd' (by simp [hfd])
    · intro r hr
      obtain ⟨s, -, rfl⟩ := List.mem_map.1 hr
      exact loadRow_defaults df _ s
    · intro _ _
      simp [List.map_map, loadRow, Function.comp]

theorem load_data_schema_spec_witness :
    c5Loaded.map (·.facility_distance) = c5Raw.rows.map (·.facility_score) :=
  ((load_data_schema_spec c5Raw).2 c5Loaded rfl).2.2 rfl rfl

/-- C7: when smoothing is disabled, or the input has exactly one distinct
date, the `temp_rolling` column equals the raw `temperature` column of
the (sorted) frame, row for row. -/
theorem temp_rolling_raw_spec (df : List LoadedRow) (use_rolling : Bool) (window : ℕ)
    (h : use_rolling = false ∨ nuniqueDates df = 1) :
    (prepare_features df use_rolling window).temp_rolling =
      (prepare_features df use_rolling window).rows.map (·.temperature) := by
  show tempRollingCol (sortRows df) use_rolling window = (sortRows df).map (·.temperature)
  unfold tempRollingCol
  rw [if_neg]
  rintro ⟨h1, h2⟩
  rw [nuniqueDates_sortRows] at h2
  rcases h with h | h
  · rw [h] at h1; cases h1
  · omega

theorem temp_rolling_raw_spec_witness :
    (prepare_features [mkLoadedRow "a" 1 30 (1/2)] true 7).temp_rolling =
      (prepare_features [mkLoadedRow "a" 1 30 (1/2)] true 7).rows.map (·.temperature) :=
  temp_rolling_raw_spec [mkLoadedRow "a" 1 30 (1/2)] true 7 (Or.inr (by decide))

theorem orderedInsert_map_setFS (v : LoadedRow → Option ℚ) (a : LoadedRow) :
    ∀ l : List LoadedRow,
      List.orderedInsert rowLe (setFacilityScore v a) (l.map (setFacilityScore v)) =
        (List.orderedInsert rowLe a l).map (setFacilityScore v)
  | [] => rfl
  | b :: l => by
    by_cases h : rowLe a b
    · rw [List.map_cons, List.orderedInsert, List.orderedInsert,
        if_pos (show rowLe (setFacilityScore v a) (setFacilityScore v b) from h),
        if_pos h, List.map_cons, List.map_cons]
    · rw [List.map_cons, List.orderedInsert, List.orderedInsert,
        if_neg (show ¬rowLe (setFacilityScore v a) (setFacilityScore v b) from h),
        if_neg h, List.map_cons, orderedInsert_map_setFS v a l]

theorem sortRows_map_setFS (v : LoadedRow → Option ℚ) :
    ∀ df : List LoadedRow,
      sortRows (df.map (setFacilityScore v)) = (sortRows df).map (setFacilityScore v)
  | [] => rfl
  | a :: l => by
    show List.orderedInsert rowLe (setFacilityScore v a) (sortRows (l.map (setFacilityScore v))) =
      (List.orderedInsert rowLe a (sortRows l)).map (setFacilityScore v)
    rw [sortRows_map_setFS v l, orderedInsert_map_setFS]

theorem unitHistory_map_setFS (v : LoadedRow → Option ℚ) (rows : List LoadedRow) (i : ℕ) :
    unitHistory (rows.map (setFacilityScore v)) i = unitHistory rows i := by
  unfold unitHistory
  have hbid : ((rows.map (setFacilityScore v)).getD i default).barangay_id
      = (rows.getD i default).barangay_id := by
    rcases Nat.lt_or_ge i rows.length with h | h
    · rw [List.getD_eq_getElem _ _ (by simpa using h), List.getD_eq_getElem _ _ h,
        List.getElem_map]
      rfl
    · rw [List.getD_eq_default _ _ (by simpa using h), List.getD_eq_default _ _ h]
  rw [hbid, ← List.map_take, List.filter_map, List.map_map]
  rfl

theorem tempRollingCol_map_setFS (v : LoadedRow → Option ℚ) (rows : List LoadedRow)
    (u : Bool) (w : ℕ) :
    tempRollingCol (rows.map (setFacilityScore v)) u w = tempRollingCol rows u w := by
  have hdates : nuniqueDates (rows.map (setFacilityScore v)) = nuniqueDates rows := by
    unfold nuniqueDates
    rw [List.map_map]
    rfl
  unfold tempRollingCol
  rw [hdates, List.length_map]
  split
  · congr 1
    funext i
    unfold rollingAt
    rw [unitHistory_map_setFS]
  · rw [List.map_map]
    rfl

theorem rawFeatures_map_setFS (v : LoadedRow → Option ℚ) (rows : List LoadedRow)
    (u : Bool) (w : ℕ) :
    rawFeatures (rows.map (setFacilityScore v)) u w = rawFeatures rows u w := by
  have hd : hasDensityFlag (rows.map (setFacilityScore v)) = hasDensityFlag rows := by
    unfold hasDensityFlag
    rw [List.map_map]
    rfl
  unfold rawFeatures
  rw [hd]
  split <;> rw [tempRollingCol_map_setFS] <;> simp only [List.map_map] <;> rfl

/-- C10: when both `facility_distance` and `facility_score` columns are
present in the input, the `facility_score` values are ignored entirely:
`load_data` keeps `facility_distance` as-is, `prepare_features`
overwrites the `facility_score` feature with the `facility_distance`
column before assembling the matrix, and every feature output of
`prepare_features` (matrix, names, weights) is invariant under arbitrary
replacement of the loaded `facility_score` column. -/
theorem facility_score_ignored_spec (df : RawTable) (rows : List LoadedRow)
    (hok : load_data df = .ok rows) (hfd : df.hasFacilityDistance = true)
    (v : LoadedRow → Option ℚ) (u : Bool) (w : ℕ) :
    rows.map (·.facility_distance) = df.rows.map (·.facility_distance)
    ∧ (prepare_features rows u w).facility_score =
        (prepare_features rows u w).rows.map (·.facility_distance)
    ∧ (prepare_features (rows.map (setFacilityScore v)) u w).featuresScaled =
        (prepare_features rows u w).featuresScaled
    ∧ (prepare_features (rows.map (setFacilityScore v)) u w).featureCols =
        (prepare_features rows u w).featureCols
    ∧ (prepare_features (rows.map (setFacilityScore v)) u w).weights =
        (prepare_features rows u w).weights := by
  have hd : hasDensityFlag (sortRows (rows.map (setFacilityScore v)))
      = hasDensityFlag (sortRows rows) := by
    rw [sortRows_map_setFS]
    unfold hasDensityFlag
    rw [List.map_map]
    rfl
  refine ⟨?_, rfl, ?_, ?_, ?_⟩
  · rcases load_data_ok_cases df rows hok with ⟨-, rfl⟩ | ⟨hfd', -, -⟩
    · simp [List.map_map, loadRow, Function.comp]
    · rw [hfd] at hfd'
      cases hfd'
  · show ((rawFeatures (sortRows (rows.map (setFacilityScore v))) u w).map minmaxScale)
      = (rawFeatures (sortRows rows) u w).map minmaxScale
    rw [sortRows_map_setFS, rawFeatures_map_setFS]
  · show (if hasDensityFlag (sortRows (rows.map (setFacilityScore v))) then _ else _)
      = (if hasDensityFlag (sortRows rows) then _ else _)
    rw [hd]
  · show (if hasDensityFlag (sortRows (rows.map (setFacilityScore v))) then _ else _)
      = (if hasDensityFlag (sortRows rows) then _ else _)
    rw [hd]

theorem facility_score_ignored_spec_witness :
    c10Loaded.map (·.facility_distance) = c10Raw.rows.map (·.facility_distance) :=
  (facility_score_ignored_spec c10Raw c10Loaded rfl rfl (fun _ => some 99) true 7).1

theorem foldl_min_le_init (x : ℚ) : ∀ l : List ℚ, l.foldl min x ≤ x
  | [] => le_refl x
  | y :: l => le_trans (foldl_min_le_init (min x y) l) (min_le_left x y)

theorem foldl_min_le_mem (x a : ℚ) : ∀ l : List ℚ, a ∈ l → l.foldl min x ≤ a
  | y :: l, h => by
    rcases List.mem_cons.1 h with rfl | h'
    · exact le_trans (foldl_min_le_init (min x a) l) (min_le_right x a)
    · exact foldl_min_le_mem (min x y) a l h'

theorem foldl_min_mem (x : ℚ) : ∀ l : List ℚ, l.foldl min x = x ∨ l.foldl min x ∈ l
  | [] => Or.inl rfl
  | y :: l => by
    show l.foldl min (min x y) = x ∨ l.foldl min (min x y) ∈ y :: l
    rcases foldl_min_mem (min x y) l with h | h
    · rcases min_choice x y with hc | hc
      · exact Or.inl (h.trans hc)
      · refine Or.inr ?_
        rw [h, hc]
        exact List.mem_cons_self y l
    · exact Or.inr (List.mem_cons_of_mem y h)

theorem init_le_foldl_max (x : ℚ) : ∀ l : List ℚ, x ≤ l.foldl max x
  | [] => le_refl x
  | y :: l => le_trans (le_max_left x y) (init_le_foldl_max (max x y) l)

theorem mem_le_foldl_max (x a : ℚ) : ∀ l : List ℚ, a ∈ l → a ≤ l.foldl max x
  | y :: l, h => by
    rcases List.mem_cons.1 h with rfl | h'
    · exact le_trans (le_max_right x a) (init_le_foldl_max (max x a) l)
    · exact mem_le_foldl_max (max x y) a l h'

theorem foldl_max_mem (x : ℚ) : ∀ l : List ℚ, l.foldl max x = x ∨ l.foldl max x ∈ l
  | [] => Or.inl rfl
  | y :: l => by
    show l.foldl max (max x y) = x ∨ l.foldl max (max x y) ∈ y :: l
    rcases foldl_max_mem (max x y) l with h | h
    · rcases max_choice x y with hc | hc
      · exact Or.inl (h.trans hc)
      · refine Or.inr ?_
        rw [h, hc]
        exact List.mem_cons_self y l
    · exact Or.inr (List.mem_cons_of_mem y h)

theorem listMin_le (xs : List ℚ) (x : ℚ) (hx : x ∈ xs) : listMin xs ≤ x := by
  cases xs with
  | nil => cases hx
  | cons y l =>
    rcases List.mem_cons.1 hx with rfl | h
    · exact foldl_min_le_init x l
    · exact foldl_min_le_mem y x l h

theorem listMin_mem (xs : List ℚ) (h : xs ≠ []) : listMin xs ∈ xs := by
  cases xs with
  | nil => exact absurd rfl h
  | cons y l =>
    show l.foldl min y ∈ y :: l
    rcases foldl_min_mem y l with h' | h'
    · rw [h']
      exact List.mem_cons_self y l
    · exact List.mem_cons_of_mem y h'

theorem le_listMax (xs : List ℚ) (x : ℚ) (hx : x ∈ xs) : x ≤ listMax xs := by
  cases xs with
  | nil => cases hx
  | cons y l =>
    rcases List.mem_cons.1 hx with rfl | h
    · exact init_le_foldl_max x l
    · exact mem_le_foldl_max y x l h

theorem listMax_mem (xs : List ℚ) (h : xs ≠ []) : listMax xs ∈ xs := by
  cases xs with
  | nil => exact absurd rfl h
  | cons y l =>
    show l.foldl max y ∈ y :: l
    rcases foldl_max_mem y l with h' | h'
    · rw [h']
      exact List.mem_cons_self y l
    · exact List.mem_cons_of_mem y h'

theorem minmaxScale_getD (xs : List ℚ) (j : ℕ) (hj : j < xs.length) :
    (minmaxScale xs).getD j 0 =
      (xs.getD j 0 - listMin xs) /
        (if listMax xs - listMin xs = 0 then 1 else listMax xs - listMin xs) := by
  unfold minmaxScale
  rw [List.getD_eq_getElem _ _ (by simpa using hj), List.getElem_map,
    List.getD_eq_getElem _ _ hj]

/-- C4: each feature column of the assembled matrix is min-max scaled
with that column's own observed minimum and maximum: a non-constant
column follows `scaled = (x − min) / (max − min)`, so its minimum maps to
`0` and its maximum to `1`; a constant column (`max = min`) maps every
row to `0` — the scaling is total (the zero denominator is replaced by
`1`), never an error. -/
theorem minmax_scaling_spec (df : List LoadedRow) (u : Bool) (w : ℕ) (k : ℕ)
    (col : List ℚ)
    (hcol : col = (prepare_features df u w).featuresRaw.getD k [])
    (hk : k < (prepare_features df u w).featuresRaw.length) :
    (prepare_features df u w).featuresScaled.getD k [] = minmaxScale col
    ∧ (col ≠ [] → listMin col ∈ col ∧ listMax col ∈ col
        ∧ ∀ x ∈ col, listMin col ≤ x ∧ x ≤ listMax col)
    ∧ (∀ j, j < col.length → col.getD j 0 = listMin col →
        (minmaxScale col).getD j 0 = 0)
    ∧ (listMin col ≠ listMax col → ∀ j, j < col.length →
        (minmaxScale col).getD j 0 =
          (col.getD j 0 - listMin col) / (listMax col - listMin col))
    ∧ (listMin col ≠ listMax col → ∀ j, j < col.length →
        col.getD j 0 = listMax col → (minmaxScale col).getD j 0 = 1)
    ∧ (listMin col = listMax col → ∀ j, j < col.length →
        (minmaxScale col).getD j 0 = 0) := by
  have hne_sub : listMin col ≠ listMax col → listMax col - listMin col ≠ 0 := by
    intro h hsub
    exact h (sub_eq_zero.1 hsub).symm
  refine ⟨?_, ?_, ?_, ?_, ?_, ?_⟩
  · show ((prepare_features df u w).featuresRaw.map minmaxScale).getD k [] = _
    rw [List.getD_eq_getElem _ _ (by simpa using hk), List.getElem_map,
      ← List.getD_eq_getElem _ [] hk, hcol]
  · intro hne
    exact ⟨listMin_mem col hne, listMax_mem col hne,
      fun x hx => ⟨listMin_le col x hx, le_listMax col x hx⟩⟩
  · intro j hj hmin
    rw [minmaxScale_getD col j hj, hmin, sub_self, zero_div]
  · intro hne j hj
    rw [minmaxScale_getD col j hj, if_neg (hne_sub hne)]
  · intro hne j hj hmax
    rw [minmaxScale_getD col j hj, if_neg (hne_sub hne), hmax,
      div_self (hne_sub hne)]
  · intro heq j hj
    have hmem : col.getD j 0 ∈ col := by
      rw [List.getD_eq_getElem _ _ hj]
      exact col.getElem_mem hj
    have : col.getD j 0 = listMin col :=
      le_antisymm (heq ▸ le_listMax col _ hmem) (listMin_le col _ hmem)
    rw [minmaxScale_getD col j hj, this, sub_self, zero_div]

theorem minmax_scaling_spec_witness :
    (minmaxScale [(30 : ℚ)]).getD 0 0 = 0 :=
  (minmax_scaling_spec [mkLoadedRow "a" 1 30 (1/2)] true 7 0 [(30 : ℚ)]
    (by decide) (by decide)).2.2.1 0 (by decide) (by decide)

theorem lastN_length (n : ℕ) (xs : List ℚ) : (lastN n xs).length = min n xs.length := by
  unfold lastN
  rw [List.length_drop]
  omega

/-- C6: with smoothing enabled and more than one distinct date in the
input, every row's `temp_rolling` value is the mean of the trailing
window of up to `window` temperatures of that row's own unit, taken over
the unit's rows at earlier-or-equal positions of the sorted frame; the
window has size `min window k ≥ 1` where `k` is the number of available
same-unit rows (partial windows allowed, no row dropped), the history
contains only same-unit rows (no cross-unit influence, by the very
definition of `unitHistory`), and every row of the history is dated
`≤` the current row's date (no look-ahead). -/
theorem temp_rolling_window_spec (df : List LoadedRow) (window : ℕ)
    (hw : 0 < window) (hdates : 1 < nuniqueDates df)
    (i : ℕ) (hi : i < (sortRows df).length) :
    (prepare_features df true window).temp_rolling.getD i 0 =
        listMean (lastN window (unitHistory (sortRows df) i))
    ∧ (lastN window (unitHistory (sortRows df) i)).length =
        min window (unitHistory (sortRows df) i).length
    ∧ 0 < (lastN window (unitHistory (sortRows df) i)).length
    ∧ ∀ s ∈ ((sortRows df).take (i + 1)).filter
        (fun s => s.barangay_id = ((sortRows df).getD i default).barangay_id),
        s.date ≤ ((sortRows df).getD i default).date := by
  have hcond : (true = true ∧ 1 < nuniqueDates (sortRows df)) := by
    rw [nuniqueDates_sortRows]
    exact ⟨rfl, hdates⟩
  refine ⟨?_, lastN_length window _, ?_, ?_⟩
  · show (tempRollingCol (sortRows df) true window).getD i 0 = _
    unfold tempRollingCol
    rw [if_pos hcond, List.getD_eq_getElem _ _ (by simpa using hi),
      List.getElem_map, List.getElem_range]
    rfl
  · rw [lastN_length]
    have hcur : (sortRows df).getD i default ∈
        ((sortRows df).take (i + 1)).filter
          (fun s => s.barangay_id = ((sortRows df).getD i default).barangay_id) := by
      rw [List.mem_filter]
      refine ⟨?_, by simp⟩
      rw [List.getD_eq_getElem _ _ hi, List.take_succ, List.getElem?_eq_getElem hi]
      exact List.mem_append_right _ (by simp)
    have hpos : 0 < (unitHistory (sortRows df) i).length := by
      unfold unitHistory
      rw [List.length_map]
      exact List.length_pos.2 (List.ne_nil_of_mem hcur)
    omega
  · intro s hs
    rw [List.mem_filter] at hs
    obtain ⟨hmem, hbid⟩ := hs
    rw [List.mem_iff_getElem] at hmem
    obtain ⟨j, hj, hsj⟩ := hmem
    have hjlen : j < (sortRows df).length := by
      have := List.length_take (i + 1) (sortRows df)
      omega
    have hji : j ≤ i := by
      have := List.length_take (i + 1) (sortRows df)
      omega
    have hsj' : (sortRows df).getD j default = s := by
      rw [List.getD_eq_getElem _ _ hjlen, ← hsj, List.getElem_take]
    have hbid' : s.barangay_id = ((sortRows df).getD i default).barangay_id :=
      of_decide_eq_true hbid
    rcases Nat.lt_or_ge j i with hlt | hge
    · have hpair := (List.pairwise_iff_getElem.1 (sortRows_sorted df)) j i hjlen hi hlt
      rw [← List.getD_eq_getElem _ default hjlen, ← List.getD_eq_getElem _ default hi,
        hsj'] at hpair
      rcases hpair with h | ⟨-, hd⟩
      · rw [hbid'] at h
        exact absurd h (lt_irrefl _)
      · exact hd
    · have hji' : j = i := le_antisymm hji hge
      rw [← hsj', hji']

theorem temp_rolling_window_spec_witness :
    (prepare_features c6Rows true 7).temp_rolling.getD 1 0 =
      listMean (lastN 7 (unitHistory (sortRows c6Rows) 1)) :=
  (temp_rolling_window_spec c6Rows 7 (by decide) (by decide) 1
    (by rw [(sortRows_perm c6Rows).length_eq]; decide)).1

/-! ### Ranking lemmas for the risk-level mapper -/

theorem rankBefore_total (xs : List ℚ) (i j : ℕ) (hij : i ≠ j) :
    rankBefore xs i j ∨ rankBefore xs j i := by
  unfold rankBefore
  rcases lt_trichotomy (xs.getD i 0) (xs.getD j 0) with h | h | h
  · exact Or.inl (Or.inl h)
  · rcases Nat.lt_or_ge i j with hd | hd
    · exact Or.inl (Or.inr ⟨h, hd⟩)
    · exact Or.inr (Or.inr ⟨h.symm, lt_of_le_of_ne hd (Ne.symm hij)⟩)
  · exact Or.inr (Or.inl h)

theorem rankBefore_irrefl (xs : List ℚ) (i : ℕ) : ¬rankBefore xs i i := by
  unfold rankBefore
  rintro (h | ⟨-, h⟩)
  · exact absurd h (lt_irrefl _)
  · exact absurd h (lt_irrefl _)

theorem rankBefore_trans (xs : List ℚ) {k i j : ℕ} (h1 : rankBefore xs k i)
    (h2 : rankBefore xs i j) : rankBefore xs k j := by
  unfold rankBefore at h1 h2 ⊢
  rcases h1 with h1 | ⟨h1, hk⟩ <;> rcases h2 with h2 | ⟨h2, hi⟩
  · exact Or.inl (h1.trans h2)
  · exact Or.inl (h2 ▸ h1)
  · exact Or.inl (h1 ▸ h2)
  · exact Or.inr ⟨h1.trans h2, hk.trans hi⟩

theorem one_le_rankAt (xs : List ℚ) (i : ℕ) : 1 ≤ rankAt xs i :=
  Nat.le_add_right 1 _

theorem rankAt_lt_rankAt (xs : List ℚ) {i j : ℕ} (hi : i < xs.length)
    (hij : rankBefore xs i j) : rankAt xs i < rankAt xs j := by
  unfold rankAt
  have hsub : insert i ((Finset.range xs.length).filter (fun k => rankBefore xs k i)) ⊆
      (Finset.range xs.length).filter (fun k => rankBefore xs k j) := by
    intro k hk
    rcases Finset.mem_insert.1 hk with rfl | hk
    · exact Finset.mem_filter.2 ⟨Finset.mem_range.2 hi, hij⟩
    · obtain ⟨hkr, hki⟩ := Finset.mem_filter.1 hk
      exact Finset.mem_filter.2 ⟨hkr, rankBefore_trans xs hki hij⟩
  have hnotmem : i ∉ (Finset.range xs.length).filter (fun k => rankBefore xs k i) := by
    intro hmem
    exact rankBefore_irrefl xs i (Finset.mem_filter.1 hmem).2
  have hle := Finset.card_le_card hsub
  rw [Finset.card_insert_of_not_mem hnotmem] at hle
  omega

theorem rankAt_le (xs : List ℚ) {i : ℕ} (hi : i < xs.length) :
    rankAt xs i ≤ xs.length := by
  unfold rankAt
  have hsub : (Finset.range xs.length).filter (fun k => rankBefore xs k i) ⊆
      (Finset.range xs.length).erase i := by
    intro k hk
    obtain ⟨hkr, hki⟩ := Finset.mem_filter.1 hk
    refine Finset.mem_erase.2 ⟨?_, hkr⟩
    rintro rfl
    exact rankBefore_irrefl xs k hki
  have hle := Finset.card_le_card hsub
  rw [Finset.card_erase_of_mem (Finset.mem_range.2 hi), Finset.card_range] at hle
  omega

theorem rankAt_injOn (xs : List ℚ) {i j : ℕ} (hi : i < xs.length) (hj : j < xs.length)
    (hr : rankAt xs i = rankAt xs j) : i = j := by
  by_contra hne
  rcases rankBefore_total xs i j hne with h | h
  · exact absurd hr (Nat.ne_of_lt (rankAt_lt_rankAt xs hi h))
  · exact absurd hr.symm (Nat.ne_of_lt (rankAt_lt_rankAt xs hj h))

theorem rankAt_surj (xs : List ℚ) (v : ℕ) (hv1 : 1 ≤ v) (hv2 : v ≤ xs.length) :
    ∃ i, i < xs.length ∧ rankAt xs i = v := by
  have hf : ∀ i : Fin xs.length, rankAt xs i.1 - 1 < xs.length := by
    intro i
    have h1 := rankAt_le xs i.2
    have h2 := one_le_rankAt xs i.1
    omega
  have hinj : Function.Injective (fun i : Fin xs.length =>
      (⟨rankAt xs i.1 - 1, hf i⟩ : Fin xs.length)) := by
    intro a b hab
    apply Fin.ext
    apply rankAt_injOn xs a.2 b.2
    have hv := congrArg Fin.val hab
    simp only at hv
    have ha := one_le_rankAt xs a.1
    have hb := one_le_rankAt xs b.1
    omega
  have hsurj := Finite.injective_iff_surjective.1 hinj
  obtain ⟨i, hi⟩ := hsurj ⟨v - 1, by omega⟩
  refine ⟨i.1, i.2, ?_⟩
  have hv := congrArg Fin.val hi
  simp only at hv
  have h2 := one_le_rankAt xs i.1
  omega

theorem rankAt_one_min (xs : List ℚ) {i : ℕ} (h1 : rankAt xs i = 1)
    {j : ℕ} (hj : j < xs.length) : xs.getD i 0 ≤ xs.getD j 0 := by
  unfold rankAt at h1
  have hcard : ((Finset.range xs.length).filter (fun k => rankBefore xs k i)).card = 0 := by
    omega
  rw [Finset.card_eq_zero] at hcard
  by_contra hlt
  push_neg at hlt
  have hmem : j ∈ (Finset.range xs.length).filter (fun k => rankBefore xs k i) :=
    Finset.mem_filter.2 ⟨Finset.mem_range.2 hj, Or.inl hlt⟩
  rw [hcard] at hmem
  exact absurd hmem (Finset.not_mem_empty j)

theorem rankAt_top_max (xs : List ℚ) {i : ℕ} (hi : i < xs.length)
    (h1 : rankAt xs i = xs.length) {j : ℕ} (hj : j < xs.length) :
    xs.getD j 0 ≤ xs.getD i 0 := by
  rcases eq_or_ne j i with rfl | hne
  · exact le_refl _
  have hsub : (Finset.range xs.length).filter (fun k => rankBefore xs k i) ⊆
      (Finset.range xs.length).erase i := by
    intro k hk
    obtain ⟨hkr, hki⟩ := Finset.mem_filter.1 hk
    refine Finset.mem_erase.2 ⟨?_, hkr⟩
    rintro rfl
    exact rankBefore_irrefl xs k hki
  have hcard : ((Finset.range xs.length).erase i).card ≤
      ((Finset.range xs.length).filter (fun k => rankBefore xs k i)).card := by
    unfold rankAt at h1
    rw [Finset.card_erase_of_mem (Finset.mem_range.2 hi), Finset.card_range]
    omega
  have heq := Finset.eq_of_subset_of_card_le hsub hcard
  have hjmem : j ∈ (Finset.range xs.length).filter (fun k => rankBefore xs k i) := by
    rw [heq]
    exact Finset.mem_erase.2 ⟨hne, Finset.mem_range.2 hj⟩
  rcases (Finset.mem_filter.1 hjmem).2 with h | ⟨h, -⟩
  · exact le_of_lt h
  · exact le_of_eq h

theorem clusterLabels_nodup (clusters : List ℕ) : (clusterLabels clusters).Nodup :=
  Finset.sort_nodup _ _

theorem mem_clusterLabels {clusters : List ℕ} {c : ℕ} :
    c ∈ clusterLabels clusters ↔ c ∈ clusters := by
  unfold clusterLabels
  rw [Finset.mem_sort, List.mem_toFinset]

theorem sevSeries_length (clusters : List ℕ) (featCols : List (List ℚ))
    (weights : List ℚ) :
    (sevSeries clusters featCols weights).length = (clusterLabels clusters).length :=
  List.length_map _ _

theorem sevSeries_getD (clusters : List ℕ) (featCols : List (List ℚ))
    (weights : List ℚ) (p : ℕ) (hp : p < (clusterLabels clusters).length) :
    (sevSeries clusters featCols weights).getD p 0 =
      severityOf clusters featCols weights ((clusterLabels clusters).getD p 0) := by
  unfold sevSeries
  rw [List.getD_eq_getElem _ _ (by simpa using hp), List.getElem_map,
    List.getD_eq_getElem _ _ hp]

theorem labels_getD_indexOf {L : List ℕ} {c : ℕ} (hc : c ∈ L) :
    L.getD (L.indexOf c) 0 = c := by
  have hlt := List.indexOf_lt_length.2 hc
  rw [List.getD_eq_getElem _ _ hlt]
  exact List.getElem_indexOf hlt

theorem indexOf_getD_of_nodup {L : List ℕ} (hnd : L.Nodup) {p : ℕ} (hp : p < L.length) :
    L.indexOf (L.getD p 0) = p := by
  have hmem : L.getD p 0 ∈ L := by
    rw [List.getD_eq_getElem _ _ hp]
    exact List.getElem_mem hp
  have hlt := List.indexOf_lt_length.2 hmem
  have hget : L[L.indexOf (L.getD p 0)] = L.getD p 0 := List.getElem_indexOf hlt
  have hg2 : L[L.indexOf (L.getD p 0)] = L[p] := by
    rw [hget, List.getD_eq_getElem _ _ hp]
  exact (List.Nodup.getElem_inj_iff hnd).1 hg2

/-- C2: the realized cluster labels receive exactly the risk levels
`{1, …, N}`, `N` being the number of realized (non-empty) clusters — a
dense ascending sequence with no gaps (every value of `1..N` occurs) and
no repeats (distinct clusters get distinct levels); a cluster of minimal
severity score receives level `1`, a cluster of maximal severity score
receives level `N`, and every observation's `risk_level` is its own
cluster's level. -/
theorem risk_levels_dense_spec (clusters : List ℕ) (featCols : List (List ℚ))
    (weights : List ℚ) (hne : clusters ≠ []) :
    ((clusterLabels clusters).map (clusterRank clusters featCols weights)).toFinset =
        Finset.Icc 1 (clusterLabels clusters).length
    ∧ (∀ c ∈ clusterLabels clusters, ∀ d ∈ clusterLabels clusters,
        clusterRank clusters featCols weights c = clusterRank clusters featCols weights d →
          c = d)
    ∧ (∃ c ∈ clusterLabels clusters, clusterRank clusters featCols weights c = 1
        ∧ ∀ d ∈ clusterLabels clusters,
            severityOf clusters featCols weights c ≤ severityOf clusters featCols weights d)
    ∧ (∃ c ∈ clusterLabels clusters,
        clusterRank clusters featCols weights c = (clusterLabels clusters).length
        ∧ ∀ d ∈ clusterLabels clusters,
            severityOf clusters featCols weights d ≤ severityOf clusters featCols weights c)
    ∧ (∀ c, c ∈ clusterLabels clusters ↔ c ∈ clusters)
    ∧ riskLevelCol clusters featCols weights =
        clusters.map (clusterRank clusters featCols weights) := by
  have hxlen : (sevSeries clusters featCols weights).length =
      (clusterLabels clusters).length := sevSeries_length clusters featCols weights
  have hNpos : 0 < (clusterLabels clusters).length := by
    obtain ⟨c, hc⟩ := List.exists_mem_of_ne_nil clusters hne
    exact List.length_pos.2 (List.ne_nil_of_mem (mem_clusterLabels.2 hc))
  have hrk : ∀ {c : ℕ}, clusterRank clusters featCols weights c =
      rankAt (sevSeries clusters featCols weights)
        ((clusterLabels clusters).indexOf c) := fun {c} => rfl
  have hsev_idx : ∀ {c : ℕ}, c ∈ clusterLabels clusters →
      (sevSeries clusters featCols weights).getD ((clusterLabels clusters).indexOf c) 0 =
        severityOf clusters featCols weights c := by
    intro c hc
    have hp := List.indexOf_lt_length.2 hc
    rw [sevSeries_getD clusters featCols weights _ hp, labels_getD_indexOf hc]
  have hmapeq : (clusterLabels clusters).map (clusterRank clusters featCols weights) =
      (List.range (clusterLabels clusters).length).map
        (fun p => rankAt (sevSeries clusters featCols weights) p) := by
    apply List.ext_getElem
    · simp
    · intro p hp1 hp2
      rw [List.getElem_map, List.getElem_map, List.getElem_range]
      have hplen : p < (clusterLabels clusters).length := by simpa using hp1
      rw [hrk]
      congr 1
      have hgd : (clusterLabels clusters)[p] = (clusterLabels clusters).getD p 0 :=
        (List.getD_eq_getElem _ _ hplen).symm
      rw [hgd]
      exact indexOf_getD_of_nodup (clusterLabels_nodup clusters) hplen
  refine ⟨?_, ?_, ?_, ?_, fun c => mem_clusterLabels, rfl⟩
  · rw [hmapeq]
    ext v
    simp only [List.mem_toFinset, List.mem_map, List.mem_range, Finset.mem_Icc]
    constructor
    · rintro ⟨p, hp, rfl⟩
      refine ⟨one_le_rankAt _ p, ?_⟩
      have hpx : p < (sevSeries clusters featCols weights).length := by omega
      have := rankAt_le (sevSeries clusters featCols weights) hpx
      omega
    · rintro ⟨hv1, hv2⟩
      obtain ⟨i, hilen, hirank⟩ :=
        rankAt_surj (sevSeries clusters featCols weights) v hv1 (by omega)
      exact ⟨i, by omega, hirank⟩
  · intro c hc d hd hrkeq
    have hpc := List.indexOf_lt_length.2 hc
    have hpd := List.indexOf_lt_length.2 hd
    rw [hrk, hrk] at hrkeq
    have hidx := rankAt_injOn (sevSeries clusters featCols weights)
      (by omega) (by omega) hrkeq
    exact (List.indexOf_inj hc hd).1 hidx
  · obtain ⟨p, hplen, hprank⟩ :=
      rankAt_surj (sevSeries clusters featCols weights) 1 le_rfl (by omega)
    have hplenL : p < (clusterLabels clusters).length := by omega
    have hmem : (clusterLabels clusters).getD p 0 ∈ clusterLabels clusters := by
      rw [List.getD_eq_getElem _ _ hplenL]
      exact List.getElem_mem hplenL
    refine ⟨(clusterLabels clusters).getD p 0, hmem, ?_, ?_⟩
    · rw [hrk, indexOf_getD_of_nodup (clusterLabels_nodup clusters) hplenL, hprank]
    · intro d hd
      have hpd := List.indexOf_lt_length.2 hd
      have h1 := rankAt_one_min (sevSeries clusters featCols weights) hprank
        (j := (clusterLabels clusters).indexOf d) (by omega)
      rw [hsev_idx hd] at h1
      have h2 : (sevSeries clusters featCols weights).getD p 0 =
          severityOf clusters featCols weights ((clusterLabels clusters).getD p 0) :=
        sevSeries_getD clusters featCols weights _ hplenL
      rw [h2] at h1
      exact h1
  · obtain ⟨p, hplen, hprank⟩ :=
      rankAt_surj (sevSeries clusters featCols weights)
        (clusterLabels clusters).length (by omega) (by omega)
    have hplenL : p < (clusterLabels clusters).length := by omega
    have hmem : (clusterLabels clusters).getD p 0 ∈ clusterLabels clusters := by
      rw [List.getD_eq_getElem _ _ hplenL]
      exact List.getElem_mem hplenL
    refine ⟨(clusterLabels clusters).getD p 0, hmem, ?_, ?_⟩
    · rw [hrk, indexOf_getD_of_nodup (clusterLabels_nodup clusters) hplenL, hprank]
    · intro d hd
      have hpd := List.indexOf_lt_length.2 hd
      have h1 := rankAt_top_max (sevSeries clusters featCols weights) hplen
        (by rw [hxlen]; exact hprank) (j := (clusterLabels clusters).indexOf d) (by omega)
      rw [hsev_idx hd] at h1
      have h2 : (sevSeries clusters featCols weights).getD p 0 =
          severityOf clusters featCols weights ((clusterLabels clusters).getD p 0) :=
        sevSeries_getD clusters featCols weights _ hplenL
      rw [h2] at h1
      exact h1

theorem risk_levels_dense_spec_witness :
    ((clusterLabels [0, 1, 0]).map (clusterRank [0, 1, 0] [[1, 3, 2]] [1])).toFinset =
      Finset.Icc 1 (clusterLabels [0, 1, 0]).length :=
  (risk_levels_dense_spec [0, 1, 0] [[1, 3, 2]] [1] (by decide)).1

/-- C3 (amended): when two realized clusters have equal severity score,
the tie is broken by ascending cluster label — the order in which
`df.groupby("cluster")` lists its (sorted) keys — not by the order in
which the labels first appear in the cluster column: among tied clusters
the numerically smaller label receives the lower risk level. -/
theorem risk_levels_tiebreak_spec (clusters : List ℕ) (featCols : List (List ℚ))
    (weights : List ℚ) (c d : ℕ) (hc : c ∈ clusters) (hd : d ∈ clusters)
    (hsev : severityOf clusters featCols weights c = severityOf clusters featCols weights d)
    (hcd : c < d) :
    clusterRank clusters featCols weights c < clusterRank clusters featCols weights d := by
  have hcL : c ∈ clusterLabels clusters := mem_clusterLabels.2 hc
  have hdL : d ∈ clusterLabels clusters := mem_clusterLabels.2 hd
  have hpc := List.indexOf_lt_length.2 hcL
  have hpd := List.indexOf_lt_length.2 hdL
  have hxlen : (sevSeries clusters featCols weights).length =
      (clusterLabels clusters).length := sevSeries_length clusters featCols weights
  have hsorted : (clusterLabels clusters).Sorted (· < ·) := Finset.sort_sorted_lt _
  have hplt : (clusterLabels clusters).indexOf c < (clusterLabels clusters).indexOf d := by
    rcases Nat.lt_or_ge ((clusterLabels clusters).indexOf c)
        ((clusterLabels clusters).indexOf d) with h | h
    · exact h
    · exfalso
      rcases Nat.eq_or_lt_of_le h with heq | hlt
      · exact absurd ((List.indexOf_inj hdL hcL).1 heq) (Ne.symm (Nat.ne_of_lt hcd))
      · have hgot := List.Sorted.rel_get_of_lt hsorted
          (a := ⟨(clusterLabels clusters).indexOf d, hpd⟩)
          (b := ⟨(clusterLabels clusters).indexOf c, hpc⟩) hlt
        rw [List.indexOf_get hpd, List.indexOf_get hpc] at hgot
        exact absurd hcd (Nat.lt_asymm hgot)
  have hbefore : rankBefore (sevSeries clusters featCols weights)
      ((clusterLabels clusters).indexOf c) ((clusterLabels clusters).indexOf d) := by
    refine Or.inr ⟨?_, hplt⟩
    have h1 : (sevSeries clusters featCols weights).getD
        ((clusterLabels clusters).indexOf c) 0 =
          severityOf clusters featCols weights c := by
      rw [sevSeries_getD clusters featCols weights _ hpc, labels_getD_indexOf hcL]
    have h2 : (sevSeries clusters featCols weights).getD
        ((clusterLabels clusters).indexOf d) 0 =
          severityOf clusters featCols weights d := by
      rw [sevSeries_getD clusters featCols weights _ hpd, labels_getD_indexOf hdL]
    rw [h1, h2]
    exact hsev
  exact rankAt_lt_rankAt (sevSeries clusters featCols weights) (by omega) hbefore

theorem risk_levels_tiebreak_spec_witness :
    clusterRank [0, 1] [[5, 5]] [1] 0 < clusterRank [0, 1] [[5, 5]] [1] 1 :=
  risk_levels_tiebreak_spec [0, 1] [[5, 5]] [1] 0 1 (by decide) (by decide)
    rfl (by decide)

/-- C3 (counterexample to the claim as stated): in the frame whose cluster
column is `[1, 0]` with one feature column `[5, 5]` and weight `1`, both
realized clusters have the same severity score and label `1` is first
seen before label `0`; first-seen tie-breaking would give cluster `1` the
lower level, but the code gives level `1` to cluster `0` and level `2` to
cluster `1` (ties are broken by the sorted `groupby` key order, not by
first appearance). -/
theorem risk_levels_tiebreak_counterexample :
    severityOf [1, 0] [[5, 5]] [1] 1 = severityOf [1, 0] [[5, 5]] [1] 0
    ∧ firstSeen [1, 0] 1 < firstSeen [1, 0] 0
    ∧ clusterRank [1, 0] [[5, 5]] [1] 1 = 2
    ∧ clusterRank [1, 0] [[5, 5]] [1] 0 = 1
    ∧ riskLevelCol [1, 0] [[5, 5]] [1] = [2, 1] := by
  have hlabels : clusterLabels [1, 0] = [0, 1] := by
    refine List.eq_of_perm_of_sorted ?_ (Finset.sort_sorted (· ≤ ·) _) (by decide)
    refine List.perm_of_nodup_nodup_toFinset_eq (clusterLabels_nodup _) (by decide) ?_
    rw [clusterLabels, Finset.sort_toFinset]
    decide
  have hs : severityOf [1, 0] [[5, 5]] [1] 1 = severityOf [1, 0] [[5, 5]] [1] 0 := rfl
  have hxs : sevSeries [1, 0] [[5, 5]] [1] =
      [severityOf [1, 0] [[5, 5]] [1] 0, severityOf [1, 0] [[5, 5]] [1] 1] := by
    unfold sevSeries
    rw [hlabels]
    rfl
  have hg0 : (sevSeries [1, 0] [[5, 5]] [1]).getD 0 0 = severityOf [1, 0] [[5, 5]] [1] 0 := by
    rw [hxs]
    rfl
  have hg1 : (sevSeries [1, 0] [[5, 5]] [1]).getD 1 0 = severityOf [1, 0] [[5, 5]] [1] 1 := by
    rw [hxs]
    rfl
  have hlen : (sevSeries [1, 0] [[5, 5]] [1]).length = 2 := by
    rw [hxs]
    rfl
  have hr0 : rankAt (sevSeries [1, 0] [[5, 5]] [1]) 0 = 1 := by
    unfold rankAt
    rw [hlen]
    have hempty : (Finset.range 2).filter
        (fun j => rankBefore (sevSeries [1, 0] [[5, 5]] [1]) j 0) = ∅ := by
      ext k
      simp only [Finset.mem_filter, Finset.mem_range, Finset.not_mem_empty, iff_false,
        not_and]
      intro hk
      have hk' : k = 0 ∨ k = 1 := by omega
      rcases hk' with rfl | rfl
      · exact rankBefore_irrefl _ 0
      · rintro (h | ⟨-, h⟩)
        · rw [hg1, hg0, hs] at h
          exact absurd h (lt_irrefl _)
        · omega
    rw [hempty]
    rfl
  have hr1 : rankAt (sevSeries [1, 0] [[5, 5]] [1]) 1 = 2 := by
    unfold rankAt
    rw [hlen]
    have hone : (Finset.range 2).filter
        (fun j => rankBefore (sevSeries [1, 0] [[5, 5]] [1]) j 1) = {0} := by
      ext k
      simp only [Finset.mem_filter, Finset.mem_range, Finset.mem_singleton]
      constructor
      · rintro ⟨hk, hbef⟩
        have hk' : k = 0 ∨ k = 1 := by omega
        rcases hk' with rfl | rfl
        · rfl
        · exact absurd hbef (rankBefore_irrefl _ 1)
      · rintro rfl
        refine ⟨by omega, Or.inr ⟨?_, by omega⟩⟩
        rw [hg0, hg1, hs]
    rw [hone]
    rfl
  have hcr0 : clusterRank [1, 0] [[5, 5]] [1] 0 = 1 := by
    unfold clusterRank
    rw [hlabels]
    exact hr0
  have hcr1 : clusterRank [1, 0] [[5, 5]] [1] 1 = 2 := by
    unfold clusterRank
    rw [hlabels]
    exact hr1
  have hrl : riskLevelCol [1, 0] [[5, 5]] [1] = [2, 1] := by
    have hmap : riskLevelCol [1, 0] [[5, 5]] [1] =
        [clusterRank [1, 0] [[5, 5]] [1] 1, clusterRank [1, 0] [[5, 5]] [1] 0] := rfl
    rw [hmap, hcr0, hcr1]
  exact ⟨hs, by decide, hcr1, hcr0, hrl⟩

/-! ### The latest-date extract -/

theorem le_latestDate : ∀ (rows : List ScoredRow) (r : ScoredRow), r ∈ rows →
    r.date ≤ latestDate rows
  | [], r, hr => absurd hr (List.not_mem_nil r)
  | a :: l, r, hr => by
    rcases List.mem_cons.1 hr with rfl | h
    · exact le_max_left _ _
    · exact le_trans (le_latestDate l r h) (le_max_right _ _)

theorem latestDate_mem : ∀ (rows : List ScoredRow), rows ≠ [] →
    ∃ r ∈ rows, r.date = latestDate rows
  | [], h => absurd rfl h
  | [a], _ => ⟨a, List.mem_singleton_self a, by
      show a.date = max a.date (latestDate [])
      have h0 : latestDate [] = 0 := rfl
      rw [h0, Nat.max_zero]⟩
  | a :: b :: l, _ => by
    obtain ⟨r, hr, hrd⟩ := latestDate_mem (b :: l) (by simp)
    have hld : latestDate (a :: b :: l) = max a.date (latestDate (b :: l)) := rfl
    rcases le_total (latestDate (b :: l)) a.date with h | h
    · exact ⟨a, List.mem_cons_self _ _, by rw [hld, max_eq_left h]⟩
    · exact ⟨r, List.mem_cons_of_mem a hr, by rw [hld, max_eq_right h, hrd]⟩

/-- C8 (counterexample to the claim as stated): on a frame whose latest
date `5` carries two rows of the same unit `"a"`, the extract has two
rows for `"a"`, not exactly one row per unit present on the latest
date — the extract never deduplicates. -/
theorem latest_extract_counterexample :
    latestDate c8DupRows = 5
    ∧ (c8DupRows.filter (fun r => r.date = latestDate c8DupRows)).map
        (·.barangay_id) = ["a", "a"]
    ∧ (latestExtract c8DupRows).length = 2
    ∧ (latestExtract c8DupRows).countP (fun t => t.1 = "a") = 2
    ∧ ¬(latestExtract c8DupRows).countP (fun t => t.1 = "a") = 1 := by
  decide

/-- C8 (amended): the final output is exactly the subset of rows whose
date equals the maximum date of the input, projected to
`(barangay_id, risk_level, cluster)` — one output row per input row dated
at the maximum (which is attained, and bounds every row's date); it
contains exactly one row per unit present on the latest date whenever no
unit occurs twice on that date (the code does not deduplicate repeated
`(unit, latest date)` rows). -/
theorem latest_extract_spec (rows : List ScoredRow) :
    (∀ t, t ∈ latestExtract rows ↔
      ∃ r ∈ rows, r.date = latestDate rows
        ∧ (r.barangay_id, r.risk_level, r.cluster) = t)
    ∧ (∀ r ∈ rows, r.date ≤ latestDate rows)
    ∧ (rows ≠ [] → ∃ r ∈ rows, r.date = latestDate rows)
    ∧ (((rows.filter (fun r => r.date = latestDate rows)).map (·.barangay_id)).Nodup →
        ∀ u, u ∈ (rows.filter (fun r => r.date = latestDate rows)).map (·.barangay_id) →
          (latestExtract rows).countP (fun t => t.1 = u) = 1) := by
  refine ⟨?_, le_latestDate rows, latestDate_mem rows, ?_⟩
  · intro t
    unfold latestExtract
    simp only [List.mem_map, List.mem_filter, decide_eq_true_eq]
    constructor
    · rintro ⟨r, ⟨hr, hd⟩, rfl⟩
      exact ⟨r, hr, hd, rfl⟩
    · rintro ⟨r, hr, hd, rfl⟩
      exact ⟨r, ⟨hr, hd⟩, rfl⟩
  · intro hnd u hu
    have hcnt : (latestExtract rows).countP (fun t => t.1 = u) =
        ((rows.filter (fun r => r.date = latestDate rows)).map
          (·.barangay_id)).countP (fun s => s = u) := by
      unfold latestExtract
      rw [List.countP_map, List.countP_map]
      rfl
    rw [hcnt]
    have hcount : ((rows.filter (fun r => r.date = latestDate rows)).map
        (·.barangay_id)).countP (fun s => s = u) =
          ((rows.filter (fun r => r.date = latestDate rows)).map
            (·.barangay_id)).count u := by
      unfold List.count
      apply List.countP_congr
      intro s _
      simp
    rw [hcount]
    exact List.count_eq_one_of_mem hnd hu

theorem latest_extract_spec_witness :
    (latestExtract c8GoodRows).countP (fun t => t.1 = "a") = 1 :=
  (latest_extract_spec c8GoodRows).2.2.2 (by decide) "a" (by decide)

/-! ### Append mode -/

theorem cellOf_append_left : ∀ (cs1 : List String) (row1 : List (Option ℚ))
    (cs2 : List String) (row2 : List (Option ℚ)) (c : String),
    row1.length = cs1.length → c ∈ cs1 →
    cellOf (cs1 ++ cs2) (row1 ++ row2) c = cellOf cs1 row1 c
  | [], _, _, _, c, _, hc => absurd hc (List.not_mem_nil c)
  | _ :: cs, [], _, _, _, hlen, _ => by simp at hlen
  | c0 :: cs, v :: vs, cs2, row2, c, hlen, hc => by
    by_cases h : c0 = c
    · simp [cellOf, h]
    · have hc' : c ∈ cs := by
        rcases List.mem_cons.1 hc with rfl | h'
        · exact absurd rfl h
        · exact h'
      simp only [List.cons_append, cellOf, if_neg h]
      exact cellOf_append_left cs vs cs2 row2 c (by simpa using hlen) hc'

theorem cellOf_append_right : ∀ (cs1 : List String) (row1 : List (Option ℚ))
    (cs2 : List String) (row2 : List (Option ℚ)) (c : String),
    row1.length = cs1.length → c ∉ cs1 →
    cellOf (cs1 ++ cs2) (row1 ++ row2) c = cellOf cs2 row2 c
  | [], [], _, _, _, _, _ => rfl
  | [], _ :: _, _, _, _, hlen, _ => by simp at hlen
  | _ :: cs, [], _, _, _, hlen, _ => by simp at hlen
  | c0 :: cs, v :: vs, cs2, row2, c, hlen, hc => by
    have h : ¬c0 = c := fun h => hc (h ▸ List.mem_cons_self c0 cs)
    simp only [List.cons_append, cellOf, if_neg h]
    exact cellOf_append_right cs vs cs2 row2 c (by simpa using hlen)
      (fun h' => hc (List.mem_cons_of_mem c0 h'))

theorem cellOf_all_none : ∀ (cs : List String) (c : String),
    cellOf cs (cs.map (fun _ => none)) c = none
  | [], _ => rfl
  | c0 :: cs, c => by
    show (if c0 = c then (none : Option ℚ) else cellOf cs (cs.map (fun _ => none)) c) = none
    rw [cellOf_all_none cs c]
    split <;> rfl

/-- C9: appending a day's snapshot to an existing history keeps every
pre-existing row unchanged, at its original index (hence in the original
relative order and before all appended rows), fills every snapshot
column absent from the history with `pd.NA` (`none`) on the pre-existing
rows, and places the snapshot's rows (realigned to the augmented column
list) after them. -/
theorem append_mode_spec (existing snapshot : Table)
    (hwf : ∀ row ∈ existing.rows, row.length = existing.cols.length) :
    (appendSnapshot existing snapshot).rows.length =
        existing.rows.length + snapshot.rows.length
    ∧ (∀ i, i < existing.rows.length → ∀ c ∈ existing.cols,
        tableCell (appendSnapshot existing snapshot) i c = tableCell existing i c)
    ∧ (∀ i, i < existing.rows.length → ∀ c ∈ snapshot.cols, c ∉ existing.cols →
        tableCell (appendSnapshot existing snapshot) i c = none)
    ∧ (appendSnapshot existing snapshot).rows.drop existing.rows.length =
        snapshot.rows.map (fun row =>
          (appendSnapshot existing snapshot).cols.map (cellOf snapshot.cols row)) := by
  have hauglen : ((addMissingCols existing snapshot.cols).rows).length =
      existing.rows.length := List.length_map _ _
  have hrow_i : ∀ i, i < existing.rows.length →
      (appendSnapshot existing snapshot).rows.getD i [] =
        existing.rows.getD i [] ++
          (snapshot.cols.filter (fun c => c ∉ existing.cols)).map (fun _ => none) := by
    intro i hi
    show ((addMissingCols existing snapshot.cols).rows ++ _).getD i [] = _
    rw [List.getD_eq_getElem?_getD, List.getElem?_append,
      if_pos (show i < (addMissingCols existing snapshot.cols).rows.length by omega),
      ← List.getD_eq_getElem?_getD]
    show ((existing.rows.map _).getD i []) = _
    rw [List.getD_eq_getElem _ _ (by simpa using hi), List.getElem_map,
      List.getD_eq_getElem _ _ hi]
  have hmem_i : ∀ i, i < existing.rows.length → existing.rows.getD i [] ∈ existing.rows := by
    intro i hi
    rw [List.getD_eq_getElem _ _ hi]
    exact List.getElem_mem hi
  refine ⟨?_, ?_, ?_, ?_⟩
  · show ((addMissingCols existing snapshot.cols).rows ++ _).length = _
    rw [List.length_append, hauglen, List.length_map]
  · intro i hi c hc
    unfold tableCell
    rw [hrow_i i hi]
    show cellOf (existing.cols ++ _) _ c = _
    exact cellOf_append_left existing.cols (existing.rows.getD i []) _ _ c
      (hwf _ (hmem_i i hi)) hc
  · intro i hi c _ hnc
    unfold tableCell
    rw [hrow_i i hi]
    show cellOf (existing.cols ++ (snapshot.cols.filter (fun c => c ∉ existing.cols))) _ c = _
    rw [cellOf_append_right existing.cols (existing.rows.getD i []) _ _ c
      (hwf _ (hmem_i i hi)) hnc]
    exact cellOf_all_none _ c
  · show ((addMissingCols existing snapshot.cols).rows ++ _).drop existing.rows.length = _
    rw [← hauglen, List.drop_left]
    rfl

theorem append_mode_spec_witness :
    tableCell (appendSnapshot c9History c9Snapshot) 0 "temperature" =
        tableCell c9History 0 "temperature"
    ∧ tableCell (appendSnapshot c9History c9Snapshot) 1 "density" = none :=
  ⟨(append_mode_spec c9History c9Snapshot (by decide)).2.1 0 (by decide)
      "temperature" (by decide),
    (append_mode_spec c9History c9Snapshot (by decide)).2.2.1 1 (by decide)
      "density" (by decide) (by decide)⟩

end HeatRisk
